import Mathlib

/-!  Verification of the free/busy interval computation engine of
`src/calendar/free_busy.rs`.

Time model: `chrono::DateTime<Utc>` instants and `chrono::Duration`s are
modelled as integers (seconds since the Unix epoch); comparisons and
`+`/`-` on them agree with the source.  The process-local timezone
(`chrono::Local`) is modelled as a fixed UTC offset `off` in seconds: the
local naive time of an instant `t` is `t + off`.  Under a fixed offset
every local naive datetime resolves to the unique instant `naive - off`,
so `Local.from_local_datetime(..).single()` is always `Some`; the DST
fallback branches of the source are noted where they collapse.  -/

namespace FreeBusy

/-- A busy period as returned by the FreeBusy API
(`google_calendar3::api::TimePeriod`): either bound may be absent. -/
structure TimePeriod where
  start : Option Int
  «end» : Option Int
deriving Repr, DecidableEq

/-- Local calendar date (days since the epoch) of instant `t` under fixed
offset `off`; models `t.with_timezone(&Local).date_naive()`.  `Int`
division is Euclidean, which is floor division for the positive divisor
86400, matching chrono. -/
def dateOf (off t : Int) : Int := (t + off) / 86400

/-- Local time of day, in seconds, of instant `t` under fixed offset `off`. -/
def todOf (off t : Int) : Int := (t + off) % 86400

/-- Ordering on the sort key `p.start : Option<DateTime<Utc>>` used by
`periods.sort_by_key(|p| p.start)`: `None` sorts before `Some`, matching
Rust's `Ord for Option`. -/
def keyLe : Option Int → Option Int → Bool
  | none, _ => true
  | some _, none => false
  | some a, some b => a ≤ b

/-- Stable insertion of a period into a list sorted by `keyLe` on `start`;
together with `sortPeriods` this models the stable
`periods.sort_by_key(|p| p.start)`. -/
def insertPeriod (p : TimePeriod) : List TimePeriod → List TimePeriod
  | [] => [p]
  | q :: rest => if keyLe p.start q.start then p :: q :: rest else q :: insertPeriod p rest

/-- Stable sort of busy periods by their (optional) start instant. -/
def sortPeriods (l : List TimePeriod) : List TimePeriod :=
  l.foldr insertPeriod []

/-- The cursor loop of `find_free_windows`, after sorting.  For each
period: a period missing either bound is skipped (`continue` in the
source); otherwise the blocked range is `[start - buffer, end + buffer]`,
a gap `[cursor, blocked_start)` is emitted when `blocked_start > cursor`,
the cursor advances to `max cursor blocked_end`, and the loop breaks once
`cursor >= window_end` (after a break the trailing `window_end > cursor`
check in the source is false, so nothing more is emitted). -/
def freeLoop (window_end buffer : Int) : List TimePeriod → Int → List (Int × Int)
  | [], cursor => if window_end > cursor then [(cursor, window_end)] else []
  | p :: rest, cursor =>
    match p.start, p.«end» with
    | some busy_start, some busy_end =>
      let blocked_start := busy_start - buffer
      let blocked_end := busy_end + buffer
      let gap := if blocked_start > cursor then [(cursor, blocked_start)] else []
      let cursor2 := max cursor blocked_end
      if cursor2 ≥ window_end then gap
      else gap ++ freeLoop window_end buffer rest cursor2
    | _, _ => freeLoop window_end buffer rest cursor

/-- `find_free_windows` from `free_busy.rs`: sort the busy periods by
start, then sweep the cursor from `window_start`. -/
def find_free_windows (busy : List TimePeriod) (window_start window_end buffer : Int) :
    List (Int × Int) :=
  freeLoop window_end buffer (sortPeriods busy) window_start

/-- The inner `while cur_date < end_date` loop of `split_at_midnight` for
one window ending at `e`.  `nm` is the instant of the next local midnight
(`cur_date.succ().and_hms(0,0,0)` resolved through the fixed offset, where
`single()` always succeeds, so the DST `earliest()`/`break` fallback of
the source is never taken).  The loop re-derives `cur_date` from the new
`cur_start` exactly as the source does. -/
def splitGo (off e : Int) (cur_start cur_date end_date : Int) : List (Int × Int) :=
  if _h : cur_date < end_date then
    let nm : Int := (cur_date + 1) * 86400 - off
    if nm ≥ e then
      if e > cur_start then [(cur_start, e)] else []
    else
      (cur_start, nm) :: splitGo off e nm (dateOf off nm) end_date
  else
    if e > cur_start then [(cur_start, e)] else []
termination_by (end_date - cur_date).toNat
decreasing_by
  simp only [dateOf]
  omega

/-- Splitting of a single window `(s, e)` at local midnights. -/
def splitOne (off : Int) (w : Int × Int) : List (Int × Int) :=
  splitGo off w.2 w.1 (dateOf off w.1) (dateOf off w.2)

/-- `split_at_midnight` from `free_busy.rs`: each window is split in
order and the segments are pushed onto one output list. -/
def split_at_midnight (off : Int) (windows : List (Int × Int)) : List (Int × Int) :=
  windows.flatMap (splitOne off)

/-- `filter_slots_by_time_of_day` from `free_busy.rs`.  Hours are `u32`,
modelled as `Nat`.  On an invalid range the source logs and returns the
input unchanged.  Otherwise, per slot: `valid_start`/`valid_end` are the
instants of `start_hour:00` / `end_hour:00` on the local date of the
slot's start (the `single()` resolution always succeeds under a fixed
offset, so the `unwrap_or_else` fallbacks collapse); `valid_end` is pushed
a day later if it does not exceed `valid_start`; the slot is intersected
with `[valid_start, valid_end)` and kept only when the intersection is
non-empty.  Comparisons on `DateTime<Local>` compare the underlying
instants, so the intersection is computed directly on instants. -/
def filter_slots_by_time_of_day (off : Int) (slots : List (Int × Int))
    (start_hour end_hour : Nat) : List (Int × Int) :=
  if start_hour ≥ end_hour ∨ start_hour > 23 ∨ end_hour > 23 then slots
  else
    slots.filterMap (fun se =>
      let slot_date := dateOf off se.1
      let valid_start := slot_date * 86400 + (start_hour : Int) * 3600 - off
      let valid_end0 := slot_date * 86400 + (end_hour : Int) * 3600 - off
      let valid_end := if valid_end0 ≤ valid_start then valid_end0 + 86400 else valid_end0
      let effective_start := max se.1 valid_start
      let effective_end := min se.2 valid_end
      if effective_start < effective_end then some (effective_start, effective_end)
      else none)

/-- Insert a `(date, slots)` entry into an association list kept sorted by
date ascending; models insertion into the `BTreeMap` used by
`summarize_slots` (a new slot for an existing date is appended to that
date's vector). -/
def insertByDay (d : Int) (x : Int × Int) :
    List (Int × List (Int × Int)) → List (Int × List (Int × Int))
  | [] => [(d, [x])]
  | (k, v) :: rest =>
    if d < k then (d, [x]) :: (k, v) :: rest
    else if d = k then (k, v ++ [x]) :: rest
    else (k, v) :: insertByDay d x rest

/-- Group slots by the local date of their start, dates ascending; models
the `BTreeMap<NaiveDate, Vec<_>>` construction in `summarize_slots`. -/
def groupByDay (off : Int) (slots : List (Int × Int)) :
    List (Int × List (Int × Int)) :=
  slots.foldl (fun m se => insertByDay (dateOf off se.1) se m) []

/-- Stable insertion for `day_slots.sort_by_key(|(s, _)| *s)`. -/
def insertSlot (x : Int × Int) : List (Int × Int) → List (Int × Int)
  | [] => [x]
  | y :: rest => if x.1 ≤ y.1 then x :: y :: rest else y :: insertSlot x rest

/-- Stable sort of one day's slots by start instant. -/
def sortSlots (l : List (Int × Int)) : List (Int × Int) :=
  l.foldr insertSlot []

/-- The merge-and-filter loop of `summarize_slots` with current interval
`(cs, ce)`: a next slot starting exactly at `ce` extends the current
interval; otherwise the current interval is emitted when it is at least
`min_len` long and the next slot becomes current; the final current
interval is emitted under the same length check. -/
def mergeRun (min_len cs ce : Int) : List (Int × Int) → List (Int × Int)
  | [] => if ce - cs ≥ min_len then [(cs, ce)] else []
  | (s, e) :: rest =>
    if s = ce then mergeRun min_len cs e rest
    else if ce - cs ≥ min_len then (cs, ce) :: mergeRun min_len s e rest
    else mergeRun min_len s e rest

/-- Merge contiguous slots of one day and drop those shorter than
`min_len`; an empty day produces nothing. -/
def mergeDay (min_len : Int) : List (Int × Int) → List (Int × Int)
  | [] => []
  | (cs, ce) :: rest => mergeRun min_len cs ce rest

/-- Civil (proleptic Gregorian) date `(year, month, day)` from days since
the epoch, as chrono renders local dates. -/
def civilFromDays (z0 : Int) : Int × Int × Int :=
  let z := z0 + 719468
  let era := z / 146097
  let doe := z - era * 146097
  let yoe := (doe - doe / 1460 + doe / 36524 - doe / 146096) / 365
  let y := yoe + era * 400
  let doy := doe - (365 * yoe + yoe / 4 - yoe / 100)
  let mp := (5 * doy + 2) / 153
  let d := doy - (153 * mp + 2) / 5 + 1
  let m := mp + (if mp < 10 then 3 else -9)
  (y + (if m ≤ 2 then 1 else 0), m, d)

/-- `%A`: full weekday name of a local date (day 0 = 1970-01-01, a
Thursday). -/
def weekdayName (d : Int) : String :=
  (["Sunday", "Monday", "Tuesday", "Wednesday", "Thursday", "Friday",
    "Saturday"]).getD ((d + 4) % 7).toNat "Sunday"

/-- `%b`: abbreviated month name. -/
def monthAbbrev (m : Int) : String :=
  (["Jan", "Feb", "Mar", "Apr", "May", "Jun", "Jul", "Aug", "Sep", "Oct",
    "Nov", "Dec"]).getD (m - 1).toNat "Jan"

/-- `%b %-d`: month abbreviation and unpadded day of month of a local
date. -/
def dateLabel (d : Int) : String :=
  let c := civilFromDays d
  monthAbbrev c.2.1 ++ " " ++ toString c.2.2

/-- Two-digit zero-padded minutes, as `%M` renders them. -/
def pad2 (m : Int) : String :=
  if m < 10 then "0" ++ toString m else toString m

/-- The nested `fmt_time` of `summarize_slots` on a local naive datetime
`l` (seconds): `%-I%P` when the minute is zero, else `%-I:%M%P`. -/
def fmtTime (l : Int) : String :=
  let tod := l % 86400
  let h := tod / 3600
  let m := tod % 3600 / 60
  let h12 := if h % 12 = 0 then 12 else h % 12
  let ampm := if h < 12 then "am" else "pm"
  if m = 0 then toString h12 ++ ampm
  else toString h12 ++ ":" ++ pad2 m ++ ampm

/-- Rendering of one merged window, as in the formatting tail of
`summarize_slots`: local start and end are formatted with weekday, `%b
%-d` date and `fmt_time`; when their local dates differ the two-date form
is used. -/
def formatSlot (off : Int) (w : Int × Int) : String :=
  let s_loc := w.1 + off
  let e_loc := w.2 + off
  let sd := s_loc / 86400
  let ed := e_loc / 86400
  let wk := weekdayName sd
  let date := dateLabel sd
  let t1 := fmtTime s_loc
  let t2 := fmtTime e_loc
  if sd ≠ ed then
    wk ++ " " ++ date ++ ": " ++ t1 ++ "–" ++ weekdayName ed ++ " " ++
      dateLabel ed ++ ": " ++ t2
  else
    wk ++ " " ++ date ++ ": " ++ t1 ++ "–" ++ t2

/-- `summarize_slots` from `free_busy.rs`: group by local start date
(ascending), sort each day by start, merge contiguous slots, drop the
short ones, and render each survivor to a string. -/
def summarize_slots (off : Int) (slots : List (Int × Int)) (min_len : Int) :
    List String :=
  (groupByDay off slots).flatMap
    (fun g => (mergeDay min_len (sortSlots g.2)).map (formatSlot off))

/-! Helper lemmas. -/

lemma mem_insertPeriod {q p : TimePeriod} {l : List TimePeriod} :
    q ∈ insertPeriod p l ↔ q = p ∨ q ∈ l := by
  induction l with
  | nil => simp [insertPeriod]
  | cons y rest ih =>
    simp only [insertPeriod]
    split
    · simp
    · simp [ih]
      tauto

lemma mem_sortPeriods {q : TimePeriod} {l : List TimePeriod} :
    q ∈ sortPeriods l ↔ q ∈ l := by
  induction l with
  | nil => simp [sortPeriods]
  | cons y rest ih =>
    simp only [sortPeriods, List.foldr_cons]
    rw [show List.foldr insertPeriod [] rest = sortPeriods rest from rfl] at *
    simp [mem_insertPeriod, ih]

/-- A busy period missing either bound is skipped by the cursor loop: it
emits nothing and leaves the cursor unchanged. -/
lemma freeLoop_skip {window_end buffer : Int} {p : TimePeriod}
    {rest : List TimePeriod} {cursor : Int}
    (h : p.start = none ∨ p.«end» = none) :
    freeLoop window_end buffer (p :: rest) cursor =
      freeLoop window_end buffer rest cursor := by
  obtain ⟨ps, pe⟩ := p
  rcases h with h | h <;> simp only at h <;> subst h
  · cases pe <;> rfl
  · cases ps <;> rfl

/-- Every window emitted by the cursor loop starts at or after the
current cursor, unconditionally: the cursor only ever moves forward. -/
lemma freeLoop_lower {window_end buffer : Int} :
    ∀ (ps : List TimePeriod) (cursor : Int),
      ∀ x ∈ freeLoop window_end buffer ps cursor, cursor ≤ x.1 := by
  intro ps
  induction ps with
  | nil =>
    intro cursor x hx
    simp only [freeLoop] at hx
    split at hx
    · simp at hx
      subst hx
      exact le_refl _
    · simp at hx
  | cons p rest ih =>
    intro cursor x hx
    obtain ⟨pstart, pend⟩ := p
    cases pstart with
    | none =>
      rw [freeLoop_skip (Or.inl rfl)] at hx
      exact ih cursor x hx
    | some bs =>
      cases pend with
      | none =>
        rw [freeLoop_skip (Or.inr rfl)] at hx
        exact ih cursor x hx
      | some be =>
        simp only [freeLoop] at hx
        split at hx
        · split at hx
          · simp at hx
            subst hx
            exact le_refl _
          · simp at hx
        · rw [List.mem_append] at hx
          rcases hx with hx | hx
          · split at hx
            · simp at hx
              subst hx
              exact le_refl _
            · simp at hx
          · exact le_trans (le_max_left _ _) (ih (max cursor (be + buffer)) x hx)

/-- Every window emitted by the cursor loop starts at or after the
current cursor, and its end is bounded by `window_end` as soon as every
present busy start minus the buffer is. -/
lemma freeLoop_bounds {window_end buffer : Int} :
    ∀ (ps : List TimePeriod) (cursor : Int),
      (∀ p ∈ ps, ∀ bs : Int, p.start = some bs → bs - buffer ≤ window_end) →
      ∀ x ∈ freeLoop window_end buffer ps cursor,
        cursor ≤ x.1 ∧ x.2 ≤ window_end := by
  intro ps
  induction ps with
  | nil =>
    intro cursor _ x hx
    simp only [freeLoop] at hx
    split at hx
    · simp at hx
      subst hx
      exact ⟨le_refl _, le_refl _⟩
    · simp at hx
  | cons p rest ih =>
    intro cursor hps x hx
    obtain ⟨pstart, pend⟩ := p
    have hrest : ∀ p ∈ rest, ∀ bs : Int, p.start = some bs → bs - buffer ≤ window_end := by
      intro q hq bs hbs
      exact hps q (List.mem_cons_of_mem _ hq) bs hbs
    cases pstart with
    | none =>
      rw [freeLoop_skip (Or.inl rfl)] at hx
      exact ih cursor hrest x hx
    | some bs =>
      cases pend with
      | none =>
        rw [freeLoop_skip (Or.inr rfl)] at hx
        exact ih cursor hrest x hx
      | some be =>
        have hbs : bs - buffer ≤ window_end :=
          hps _ (List.mem_cons_self _ _) bs rfl
        simp only [freeLoop] at hx
        split at hx
        · split at hx
          · simp at hx
            subst hx
            exact ⟨le_refl _, hbs⟩
          · simp at hx
        · rw [List.mem_append] at hx
          rcases hx with hx | hx
          · split at hx
            · simp at hx
              subst hx
              exact ⟨le_refl _, hbs⟩
            · simp at hx
          · have := ih (max cursor (be + buffer)) hrest x hx
            constructor
            · exact le_trans (le_max_left _ _) this.1
            · exact this.2

/-- Emitted windows are non-empty, start at or after the cursor, and are
pairwise ordered end-before-start. -/
lemma freeLoop_sorted {window_end buffer : Int} (hbuf : 0 ≤ buffer) :
    ∀ (ps : List TimePeriod) (cursor : Int),
      (∀ p ∈ ps, ∀ bs be : Int, p.start = some bs → p.«end» = some be → bs ≤ be) →
      (∀ x ∈ freeLoop window_end buffer ps cursor, cursor ≤ x.1 ∧ x.1 < x.2) ∧
        List.Pairwise (fun a b : Int × Int => a.2 ≤ b.1)
          (freeLoop window_end buffer ps cursor) := by
  intro ps
  induction ps with
  | nil =>
    intro cursor _
    constructor
    · intro x hx
      simp only [freeLoop] at hx
      split at hx
      · simp at hx
        subst hx
        refine ⟨le_refl _, ?_⟩
        show cursor < window_end
        omega
      · simp at hx
    · simp only [freeLoop]
      split
      · simp
      · simp
  | cons p rest ih =>
    intro cursor hps
    obtain ⟨pstart, pend⟩ := p
    have hrest : ∀ p ∈ rest, ∀ bs be : Int,
        p.start = some bs → p.«end» = some be → bs ≤ be := by
      intro q hq bs be h1 h2
      exact hps q (List.mem_cons_of_mem _ hq) bs be h1 h2
    cases pstart with
    | none =>
      rw [freeLoop_skip (Or.inl rfl)]
      exact ih cursor hrest
    | some bs =>
      cases pend with
      | none =>
        rw [freeLoop_skip (Or.inr rfl)]
        exact ih cursor hrest
      | some be =>
        have hbe : bs ≤ be := hps _ (List.mem_cons_self _ _) bs be rfl rfl
        obtain ⟨ihb, ihp⟩ := ih (max cursor (be + buffer)) hrest
        simp only [freeLoop]
        split
        · constructor
          · intro x hx
            split at hx
            · simp at hx
              subst hx
              refine ⟨le_refl _, ?_⟩
              show cursor < bs - buffer
              omega
            · simp at hx
          · split
            · simp
            · simp
        · constructor
          · intro x hx
            rw [List.mem_append] at hx
            rcases hx with hx | hx
            · split at hx
              · simp at hx
                subst hx
                refine ⟨le_refl _, ?_⟩
                show cursor < bs - buffer
                omega
              · simp at hx
            · have := ihb x hx
              exact ⟨le_trans (le_max_left _ _) this.1, this.2⟩
          · rw [List.pairwise_append]
            refine ⟨?_, ihp, ?_⟩
            · split
              · simp
              · simp
            · intro a ha b hb
              have hbn := (ihb b hb).1
              split at ha
              · simp at ha
                subst ha
                show bs - buffer ≤ b.1
                have hmax : be + buffer ≤ max cursor (be + buffer) := le_max_right _ _
                omega
              · simp at ha

/-! Claim theorems for the Free-Window Calculator and the hours filter. -/

/-- C1 (counterexample): a busy period whose start bound is missing is
not treated as if its start were `window.start`: on the window `[0, 100)`
with no buffer, the period `{start: none, end: 10}` yields a different
result than the same period with its start substituted by the window
start, so the missing-bound period does not block `[0, 10)`. -/
theorem find_free_windows_missing_start_not_defaulted :
    find_free_windows [⟨none, some 10⟩] 0 100 0 ≠
      find_free_windows [⟨some 0, some 10⟩] 0 100 0 := by
  decide

/-- C1 (amended): a busy period missing its start or its end bound is
skipped entirely by the cursor loop of `find_free_windows` — it blocks no
portion of the window (the emitted windows and the cursor are exactly
those of the remaining periods) — and the computation completes without
error. -/
theorem freeLoop_skips_missing_bound {window_end buffer : Int}
    {p : TimePeriod} {rest : List TimePeriod} {cursor : Int}
    (h : p.start = none ∨ p.«end» = none) :
    freeLoop window_end buffer (p :: rest) cursor =
      freeLoop window_end buffer rest cursor :=
  freeLoop_skip h

/-- Witness for the amended C1 at a concrete period with no start. -/
theorem freeLoop_skips_missing_bound_witness :
    ((⟨none, some 5⟩ : TimePeriod).start = none ∨
        (⟨none, some 5⟩ : TimePeriod).«end» = none) ∧
      freeLoop 10 0 [⟨none, some 5⟩] 0 = freeLoop 10 0 [] 0 :=
  ⟨Or.inl rfl, freeLoop_skips_missing_bound (Or.inl rfl)⟩

/-- C2 (counterexample): a busy period that starts after the window's end
makes `find_free_windows` emit an interval whose end exceeds
`window.end`: with window `[0, 10)`, zero buffer and the well-formed busy
period `[20, 30]`, the output is `[(0, 20)]`, whose end 20 is not within
the window end 10. -/
theorem find_free_windows_overshoots_window_end :
    find_free_windows [⟨some 20, some 30⟩] 0 10 0 = [(0, 20)] ∧
      ¬((20 : Int) ≤ 10) := by
  exact ⟨by decide, by decide⟩

/-- C2 (amended): under the claim's hypotheses, every produced interval
starts at or after `window.start` — unconditionally, since the cursor
starts at `window.start` and only moves forward; its end additionally
stays at or before `window.end` whenever every busy period's buffered
start (`start - buffer`) is at most `window.end`. -/
theorem find_free_windows_within_window (busy : List TimePeriod)
    (window_start window_end buffer : Int)
    (hb : ∀ p ∈ busy, ∃ bs be : Int,
        p.start = some bs ∧ p.«end» = some be ∧ bs ≤ be)
    (hw : window_start ≤ window_end) (hbuf : 0 ≤ buffer) :
    ∀ x ∈ find_free_windows busy window_start window_end buffer,
      window_start ≤ x.1 ∧
        ((∀ p ∈ busy, ∀ bs : Int, p.start = some bs → bs - buffer ≤ window_end) →
          x.2 ≤ window_end) := by
  intro x hx
  refine ⟨freeLoop_lower (sortPeriods busy) window_start x hx, ?_⟩
  intro hin
  exact (freeLoop_bounds (sortPeriods busy) window_start
    (fun p hp bs hbs => hin p (mem_sortPeriods.mp hp) bs hbs) x hx).2

/-- Witness for the amended C2 at a concrete in-window busy period. -/
theorem find_free_windows_within_window_witness :
    (0 : Int) ≤ 100 ∧ (0 : Int) ≤ 5 ∧
      ((0 : Int) ≤ ((0 : Int), (45 : Int)).1 ∧
        ((∀ p ∈ [(⟨some 50, some 60⟩ : TimePeriod)], ∀ bs : Int,
            p.start = some bs → bs - 5 ≤ 100) →
          ((0 : Int), (45 : Int)).2 ≤ 100)) :=
  ⟨by decide, by decide,
    find_free_windows_within_window [⟨some 50, some 60⟩] 0 100 5
      (by
        intro p hp
        simp at hp
        subst hp
        exact ⟨50, 60, rfl, rfl, by decide⟩)
      (by decide) (by decide)
      (0, 45) (by decide)⟩

/-- C3: with both bounds present and `start ≤ end` on every busy period
and a non-negative buffer, the returned free windows are sorted by start
ascending and pairwise non-overlapping: every earlier interval ends at or
before every later one starts. -/
theorem find_free_windows_sorted_disjoint (busy : List TimePeriod)
    (window_start window_end buffer : Int)
    (hb : ∀ p ∈ busy, ∃ bs be : Int,
        p.start = some bs ∧ p.«end» = some be ∧ bs ≤ be)
    (hbuf : 0 ≤ buffer) :
    List.Pairwise (fun a b : Int × Int => a.1 < b.1 ∧ a.2 ≤ b.1)
      (find_free_windows busy window_start window_end buffer) := by
  have hps : ∀ p ∈ sortPeriods busy, ∀ bs be : Int,
      p.start = some bs → p.«end» = some be → bs ≤ be := by
    intro p hp bs be h1 h2
    obtain ⟨bs', be', e1, e2, hle⟩ := hb p (mem_sortPeriods.mp hp)
    rw [h1] at e1
    rw [h2] at e2
    injection e1 with e1
    injection e2 with e2
    omega
  obtain ⟨hbnd, hpw⟩ := freeLoop_sorted hbuf (sortPeriods busy) window_start hps
  refine List.Pairwise.imp_of_mem ?_ hpw
  intro a b ha hb' hr
  have h1 := (hbnd a ha).2
  exact ⟨by omega, hr⟩

/-- Witness for C3 at one busy period inside the window. -/
theorem find_free_windows_sorted_disjoint_witness :
    (0 : Int) ≤ 5 ∧
      List.Pairwise (fun a b : Int × Int => a.1 < b.1 ∧ a.2 ≤ b.1)
        (find_free_windows [⟨some 10, some 20⟩] 0 100 5) :=
  ⟨by decide,
    find_free_windows_sorted_disjoint [⟨some 10, some 20⟩] 0 100 5
      (by
        intro p hp
        simp at hp
        subst hp
        exact ⟨10, 20, rfl, rfl, by decide⟩)
      (by decide)⟩

/-- C7: whenever the precondition `0 ≤ startHour < endHour ≤ 23` fails,
`filter_slots_by_time_of_day` returns its input list unchanged — nothing
is trimmed, dropped or reordered. -/
theorem filter_slots_invalid_range_noop (off : Int) (slots : List (Int × Int))
    (start_hour end_hour : Nat)
    (h : ¬(start_hour < end_hour ∧ end_hour ≤ 23)) :
    filter_slots_by_time_of_day off slots start_hour end_hour = slots := by
  unfold filter_slots_by_time_of_day
  rw [if_pos]
  omega

/-- Witness for C7 at the spec's example hours `start = 14`, `end = 9`. -/
theorem filter_slots_invalid_range_noop_witness :
    ¬(14 < 9 ∧ 9 ≤ 23) ∧
      filter_slots_by_time_of_day 0 [(0, 3600)] 14 9 = [(0, 3600)] :=
  ⟨by decide, filter_slots_invalid_range_noop 0 [(0, 3600)] 14 9 (by decide)⟩

/-! Day-splitter lemmas. -/

/-- `l` is a partition of `[s, e)` into consecutive non-degenerate
segments: it is non-empty, starts at `s`, ends at `e`, and each segment
begins where the previous one ends. -/
def IsPartition (s e : Int) : List (Int × Int) → Prop
  | [] => False
  | [x] => x.1 = s ∧ x.2 = e
  | x :: y :: rest => x.1 = s ∧ IsPartition x.2 e (y :: rest)

/-- The split loop partitions `[cur_start, e)`. -/
lemma splitGo_isPartition (off e : Int) (cs cd ed : Int) (h : cs < e) :
    IsPartition cs e (splitGo off e cs cd ed) := by
  revert h
  induction cs, cd, ed using splitGo.induct off e with
  | case1 cs cd ed h1 nm h2 h3 =>
    intro h
    rw [splitGo, dif_pos h1]
    simp only [ge_iff_le] at h2 ⊢
    rw [if_pos h2, if_pos h3]
    exact ⟨rfl, rfl⟩
  | case2 cs cd ed h1 nm h2 h3 =>
    intro h
    omega
  | case3 cs cd ed h1 nm h2 ih =>
    intro _
    rw [splitGo, dif_pos h1]
    simp only [ge_iff_le] at h2 ⊢
    rw [if_neg h2]
    have hrec := ih (by omega)
    cases hc : splitGo off e nm (dateOf off nm) ed with
    | nil => rw [hc] at hrec; exact absurd hrec id
    | cons y ys =>
      rw [hc] at hrec
      exact ⟨rfl, hrec⟩
  | case4 cs cd ed h1 h2 =>
    intro h
    rw [splitGo, dif_neg h1]
    rw [if_pos h2]
    exact ⟨rfl, rfl⟩
  | case5 cs cd ed h1 h2 =>
    intro h
    omega

/-- Under the loop invariants `cd = dateOf off cs` and `ed = dateOf off e`
every emitted segment lies within one local calendar day. -/
lemma splitGo_daybound (off e : Int) (cs cd ed : Int)
    (hcd : cd = dateOf off cs) (hed : ed = dateOf off e) :
    ∀ p ∈ splitGo off e cs cd ed, dateOf off p.1 = dateOf off (p.2 - 1) := by
  revert hcd hed
  induction cs, cd, ed using splitGo.induct off e with
  | case1 cs cd ed h1 nm h2 h3 =>
    intro hcd hed p hp
    have hnm : nm = (cd + 1) * 86400 - off := rfl
    rw [splitGo, dif_pos h1] at hp
    simp only [ge_iff_le] at h2 hp
    rw [if_pos h2, if_pos h3] at hp
    simp at hp
    subst hp
    show dateOf off cs = dateOf off (e - 1)
    subst hcd hed
    simp only [dateOf] at *
    omega
  | case2 cs cd ed h1 nm h2 h3 =>
    intro hcd hed p hp
    rw [splitGo, dif_pos h1] at hp
    simp only [ge_iff_le] at h2 hp
    rw [if_pos h2, if_neg h3] at hp
    simp at hp
  | case3 cs cd ed h1 nm h2 ih =>
    intro hcd hed p hp
    have hnm : nm = (cd + 1) * 86400 - off := rfl
    rw [splitGo, dif_pos h1] at hp
    simp only [ge_iff_le] at h2 hp
    rw [if_neg h2] at hp
    rw [List.mem_cons] at hp
    rcases hp with hp | hp
    · subst hp
      show dateOf off cs = dateOf off (nm - 1)
      subst hcd hed
      simp only [dateOf] at *
      omega
    · exact ih rfl hed p hp
  | case4 cs cd ed h1 h2 =>
    intro hcd hed p hp
    rw [splitGo, dif_neg h1] at hp
    rw [if_pos h2] at hp
    simp at hp
    subst hp
    show dateOf off cs = dateOf off (e - 1)
    subst hcd hed
    simp only [dateOf] at *
    omega
  | case5 cs cd ed h1 h2 =>
    intro hcd hed p hp
    rw [splitGo, dif_neg h1] at hp
    rw [if_neg h2] at hp
    simp at hp

/-- A window that already lies within one local day (or ends exactly at
the next local midnight) splits into itself alone. -/
lemma splitOne_self {off s e : Int} (hse : s < e)
    (h : dateOf off e ≤ dateOf off s ∨ (dateOf off s + 1) * 86400 - off ≥ e) :
    splitOne off (s, e) = [(s, e)] := by
  unfold splitOne
  by_cases hlt : dateOf off s < dateOf off e
  · rw [splitGo, dif_pos hlt]
    have h2 : (dateOf off s + 1) * 86400 - off ≥ e := by omega
    simp only [ge_iff_le] at h2 ⊢
    rw [if_pos h2, if_pos hse]
  · rw [splitGo, dif_neg hlt, if_pos hse]

/-- Every segment emitted by the split loop splits into itself alone. -/
lemma splitGo_resplit (off e : Int) (cs cd ed : Int)
    (hcd : cd = dateOf off cs) (hed : ed = dateOf off e) :
    ∀ p ∈ splitGo off e cs cd ed, splitOne off p = [p] := by
  revert hcd hed
  induction cs, cd, ed using splitGo.induct off e with
  | case1 cs cd ed h1 nm h2 h3 =>
    intro hcd hed p hp
    have hnm : nm = (cd + 1) * 86400 - off := rfl
    rw [splitGo, dif_pos h1] at hp
    simp only [ge_iff_le] at h2 hp
    rw [if_pos h2, if_pos h3] at hp
    simp at hp
    subst hp
    subst hcd
    exact splitOne_self h3 (Or.inr (by omega))
  | case2 cs cd ed h1 nm h2 h3 =>
    intro hcd hed p hp
    rw [splitGo, dif_pos h1] at hp
    simp only [ge_iff_le] at h2 hp
    rw [if_pos h2, if_neg h3] at hp
    simp at hp
  | case3 cs cd ed h1 nm h2 ih =>
    intro hcd hed p hp
    have hnm : nm = (cd + 1) * 86400 - off := rfl
    rw [splitGo, dif_pos h1] at hp
    simp only [ge_iff_le] at h2 hp
    rw [if_neg h2] at hp
    rw [List.mem_cons] at hp
    rcases hp with hp | hp
    · subst hp
      subst hcd
      refine splitOne_self ?_ (Or.inr ?_)
      · simp only [dateOf] at *
        omega
      · omega
    · exact ih rfl hed p hp
  | case4 cs cd ed h1 h2 =>
    intro hcd hed p hp
    rw [splitGo, dif_neg h1] at hp
    rw [if_pos h2] at hp
    simp at hp
    subst hp
    exact splitOne_self h2 (Or.inl (by omega))
  | case5 cs cd ed h1 h2 =>
    intro hcd hed p hp
    rw [splitGo, dif_neg h1] at hp
    rw [if_neg h2] at hp
    simp at hp

/-- A list whose elements each split into themselves is a fixed point of
per-element splitting. -/
lemma flatMap_splitOne_self {off : Int} :
    ∀ {l : List (Int × Int)}, (∀ p ∈ l, splitOne off p = [p]) →
      l.flatMap (splitOne off) = l := by
  intro l
  induction l with
  | nil => intro _; rfl
  | cons x rest ih =>
    intro h
    rw [List.flatMap_cons, h x (List.mem_cons_self _ _),
      ih fun p hp => h p (List.mem_cons_of_mem _ hp)]
    rfl

/-! Claim theorems for the Day Splitter. -/

/-- C4: `split_at_midnight` is order-preserving — it is exactly the
in-order concatenation of each window's segment list — and for every
window with `start < end` the segments form a partition of the window
into consecutive pieces, none of which straddles a local-day boundary
(the local date of a segment's start equals the local date of the last
instant before its end). -/
theorem split_at_midnight_partitions (off : Int) (ws : List (Int × Int))
    (h : ∀ w ∈ ws, w.1 < w.2) :
    split_at_midnight off ws = ws.flatMap (splitOne off) ∧
      ∀ w ∈ ws, IsPartition w.1 w.2 (splitOne off w) ∧
        ∀ p ∈ splitOne off w, dateOf off p.1 = dateOf off (p.2 - 1) := by
  refine ⟨rfl, ?_⟩
  intro w hw
  exact ⟨splitGo_isPartition off w.2 w.1 _ _ (h w hw),
    fun p hp => splitGo_daybound off w.2 w.1 _ _ rfl rfl p hp⟩

/-- Witness for C4 on one window spanning two local days. -/
theorem split_at_midnight_partitions_witness :
    (∀ w ∈ [((0 : Int), (100000 : Int))], w.1 < w.2) ∧
      (split_at_midnight 0 [((0 : Int), (100000 : Int))] =
          [((0 : Int), (100000 : Int))].flatMap (splitOne 0) ∧
        ∀ w ∈ [((0 : Int), (100000 : Int))],
          IsPartition w.1 w.2 (splitOne 0 w) ∧
            ∀ p ∈ splitOne 0 w, dateOf 0 p.1 = dateOf 0 (p.2 - 1)) :=
  ⟨by decide, split_at_midnight_partitions 0 _ (by decide)⟩

/-- C5: the Day Splitter is idempotent — re-running `split_at_midnight`
on its own output returns the same list unchanged, for every input
list. -/
theorem split_at_midnight_idempotent (off : Int) (ws : List (Int × Int)) :
    split_at_midnight off (split_at_midnight off ws) = split_at_midnight off ws := by
  unfold split_at_midnight
  induction ws with
  | nil => rfl
  | cons w rest ih =>
    rw [List.flatMap_cons, List.flatMap_append, ih]
    congr 1
    exact flatMap_splitOne_self (splitGo_resplit off w.2 w.1 _ _ rfl rfl)

/-- C10: whenever the split loop iterates (the current local date is
before the end's local date and the next-midnight instant is before the
window's end), it emits the segment up to that midnight and recurses with
the segment's local date advanced by exactly one day, still bounded by
the end date — the loop measure strictly decreases, so the recursion is
well-founded; under the fixed-offset model every midnight conversion
resolves, and `splitGo` is total. -/
theorem splitGo_advances (off e cur_start cur_date end_date : Int)
    (h1 : cur_date < end_date) (h2 : (cur_date + 1) * 86400 - off < e) :
    splitGo off e cur_start cur_date end_date =
      (cur_start, (cur_date + 1) * 86400 - off) ::
        splitGo off e ((cur_date + 1) * 86400 - off) (cur_date + 1) end_date ∧
      dateOf off ((cur_date + 1) * 86400 - off) = cur_date + 1 ∧
      cur_date + 1 ≤ end_date := by
  have hd : dateOf off ((cur_date + 1) * 86400 - off) = cur_date + 1 := by
    simp only [dateOf]
    omega
  refine ⟨?_, hd, by omega⟩
  rw [splitGo, dif_pos h1]
  simp only [ge_iff_le, hd]
  rw [if_neg (by omega)]

/-- Witness for C10 at a concrete loop state that iterates once. -/
theorem splitGo_advances_witness :
    (0 : Int) < 2 ∧ ((0 : Int) + 1) * 86400 - 0 < 200000 ∧
      (splitGo 0 200000 0 0 2 =
          ((0 : Int), ((0 : Int) + 1) * 86400 - 0) ::
            splitGo 0 200000 (((0 : Int) + 1) * 86400 - 0) (0 + 1) 2 ∧
        dateOf 0 (((0 : Int) + 1) * 86400 - 0) = 0 + 1 ∧
        (0 : Int) + 1 ≤ 2) :=
  ⟨by decide, by decide, splitGo_advances 0 200000 0 0 2 (by decide) (by decide)⟩

/-! Claim theorem for the Business-Hours Filter. -/

/-- C6: on day-bounded inputs and a valid hour range, every filtered slot
starts no earlier than `start_hour:00` local time, ends no later than
`end_hour:00` local time, and lies on a single local date. -/
theorem filter_slots_hours_containment (off : Int) (slots : List (Int × Int))
    (start_hour end_hour : Nat)
    (hh : start_hour < end_hour) (hh23 : end_hour ≤ 23)
    (hday : ∀ w ∈ slots, w.1 < w.2 ∧ dateOf off w.1 = dateOf off (w.2 - 1)) :
    ∀ x ∈ filter_slots_by_time_of_day off slots start_hour end_hour,
      (start_hour : Int) * 3600 ≤ todOf off x.1 ∧
        todOf off x.2 ≤ (end_hour : Int) * 3600 ∧
        dateOf off x.1 = dateOf off x.2 := by
  intro x hx
  unfold filter_slots_by_time_of_day at hx
  rw [if_neg (by omega)] at hx
  rw [List.mem_filterMap] at hx
  obtain ⟨w, hw, hfx⟩ := hx
  obtain ⟨hlt, hd⟩ := hday w hw
  simp only at hfx
  have hAdj : ¬(dateOf off w.1 * 86400 + (end_hour : Int) * 3600 - off ≤
      dateOf off w.1 * 86400 + (start_hour : Int) * 3600 - off) := by
    simp only [dateOf]
    omega
  rw [if_neg hAdj] at hfx
  split at hfx
  · rename_i hcond
    injection hfx with hfx
    subst hfx
    have hA1 : w.1 ≤ max w.1 (dateOf off w.1 * 86400 + (start_hour : Int) * 3600 - off) :=
      le_max_left _ _
    have hA2 : dateOf off w.1 * 86400 + (start_hour : Int) * 3600 - off ≤
        max w.1 (dateOf off w.1 * 86400 + (start_hour : Int) * 3600 - off) :=
      le_max_right _ _
    have hB1 : min w.2 (dateOf off w.1 * 86400 + (end_hour : Int) * 3600 - off) ≤ w.2 :=
      min_le_left _ _
    have hB2 : min w.2 (dateOf off w.1 * 86400 + (end_hour : Int) * 3600 - off) ≤
        dateOf off w.1 * 86400 + (end_hour : Int) * 3600 - off :=
      min_le_right _ _
    simp only [dateOf, todOf] at *
    omega
  · exact absurd hfx (by simp)

/-- Witness for C6 on the spec's `[09:00, 17:00]` slot filtered to
`9..12`. -/
theorem filter_slots_hours_containment_witness :
    9 < 12 ∧ 12 ≤ 23 ∧
      ((9 : Int) * 3600 ≤ todOf 0 ((32400 : Int), (43200 : Int)).1 ∧
        todOf 0 ((32400 : Int), (43200 : Int)).2 ≤ (12 : Int) * 3600 ∧
        dateOf 0 ((32400 : Int), (43200 : Int)).1 =
          dateOf 0 ((32400 : Int), (43200 : Int)).2) :=
  ⟨by decide, by decide,
    filter_slots_hours_containment 0 [(32400, 61200)] 9 12 (by decide) (by decide)
      (by decide) (32400, 43200) (by decide)⟩

/-! Summarizer lemmas. -/

lemma mem_insertSlot {y x : Int × Int} {l : List (Int × Int)} :
    y ∈ insertSlot x l ↔ y = x ∨ y ∈ l := by
  induction l with
  | nil => simp [insertSlot]
  | cons z rest ih =>
    simp only [insertSlot]
    split
    · simp
    · simp [ih]
      tauto

lemma mem_sortSlots {y : Int × Int} {l : List (Int × Int)} :
    y ∈ sortSlots l ↔ y ∈ l := by
  induction l with
  | nil => simp [sortSlots]
  | cons z rest ih =>
    simp only [sortSlots, List.foldr_cons]
    rw [show List.foldr insertSlot [] rest = sortSlots rest from rfl] at *
    simp [mem_insertSlot, ih]

/-- Predicates over grouped slots transfer through `insertByDay`. -/
lemma insertByDay_forall {P : Int × Int → Prop} :
    ∀ {m : List (Int × List (Int × Int))} {d : Int} {y : Int × Int},
      (∀ g ∈ m, ∀ x ∈ g.2, P x) → P y →
      ∀ g ∈ insertByDay d y m, ∀ x ∈ g.2, P x := by
  intro m
  induction m with
  | nil =>
    intro d y _ hy g hg x hx
    simp [insertByDay] at hg
    subst hg
    simp at hx
    subst hx
    exact hy
  | cons kv rest ih =>
    intro d y hm hy g hg x hx
    obtain ⟨k, v⟩ := kv
    simp only [insertByDay] at hg
    split at hg
    · rcases List.mem_cons.mp hg with hg | hg
      · subst hg
        simp at hx
        subst hx
        exact hy
      · exact hm g hg x hx
    · split at hg
      · rcases List.mem_cons.mp hg with hg | hg
        · subst hg
          simp only at hx
          rcases List.mem_append.mp hx with hx | hx
          · exact hm (k, v) (List.mem_cons_self _ _) x hx
          · simp at hx
            subst hx
            exact hy
        · exact hm g (List.mem_cons_of_mem _ hg) x hx
      · rcases List.mem_cons.mp hg with hg | hg
        · subst hg
          exact hm (k, v) (List.mem_cons_self _ _) x hx
        · exact ih (fun g' hg' => hm g' (List.mem_cons_of_mem _ hg')) hy g hg x hx

/-- Every slot stored in a day group of `groupByDay` is one of the input
slots. -/
lemma groupByDay_mem {off : Int} {slots : List (Int × Int)} :
    ∀ g ∈ groupByDay off slots, ∀ x ∈ g.2, x ∈ slots := by
  have main : ∀ (l acc : _) (P : Int × Int → Prop),
      (∀ g ∈ acc, ∀ x ∈ g.2, P x) → (∀ s ∈ l, P s) →
      ∀ g ∈ List.foldl (fun m se => insertByDay (dateOf off se.1) se m) acc l,
        ∀ x ∈ g.2, P x := by
    intro l
    induction l with
    | nil => intro acc P hacc _ g hg x hx; exact hacc g hg x hx
    | cons s rest ih =>
      intro acc P hacc hl g hg x hx
      rw [List.foldl_cons] at hg
      refine ih _ P ?_ (fun s' hs' => hl s' (List.mem_cons_of_mem _ hs')) g hg x hx
      exact insertByDay_forall hacc (hl s (List.mem_cons_self _ _))
  exact main slots [] (· ∈ slots) (by simp) (fun s hs => hs)

/-- Every interval emitted by the merge loop is at least `min_len`
long. -/
lemma mergeRun_minLen {min_len : Int} :
    ∀ (l : List (Int × Int)) (cs ce : Int),
      ∀ x ∈ mergeRun min_len cs ce l, min_len ≤ x.2 - x.1 := by
  intro l
  induction l with
  | nil =>
    intro cs ce x hx
    simp only [mergeRun] at hx
    split at hx
    · simp at hx
      subst hx
      simp only
      omega
    · simp at hx
  | cons se rest ih =>
    intro cs ce x hx
    obtain ⟨s, e⟩ := se
    simp only [mergeRun] at hx
    split at hx
    · exact ih cs e x hx
    · split at hx
      · rcases List.mem_cons.mp hx with hx | hx
        · subst hx
          simp only
          omega
        · exact ih s e x hx
      · exact ih s e x hx

/-- Every interval emitted by `mergeDay` is at least `min_len` long. -/
lemma mergeDay_minLen {min_len : Int} (l : List (Int × Int)) :
    ∀ x ∈ mergeDay min_len l, min_len ≤ x.2 - x.1 := by
  cases l with
  | nil => simp [mergeDay]
  | cons se rest =>
    obtain ⟨cs, ce⟩ := se
    exact mergeRun_minLen rest cs ce

/-- When nothing is dropped (`min_len ≤ 0` and well-formed slots) the
merge loop emits a block starting at `cs`, and no two consecutive emitted
blocks touch: each block's start differs from the previous block's
end. -/
lemma mergeRun_chain {min_len : Int} (hml : min_len ≤ 0) :
    ∀ (l : List (Int × Int)) (cs ce : Int), (∀ p ∈ l, p.1 ≤ p.2) → cs ≤ ce →
      ∃ z tl, mergeRun min_len cs ce l = (cs, z) :: tl ∧
        List.Chain' (fun a b : Int × Int => b.1 ≠ a.2) ((cs, z) :: tl) := by
  intro l
  induction l with
  | nil =>
    intro cs ce _ hce
    refine ⟨ce, [], ?_, ?_⟩
    · simp only [mergeRun]
      rw [if_pos (by omega)]
    · simp
  | cons se rest ih =>
    intro cs ce hwf hce
    obtain ⟨s, e⟩ := se
    have hse : s ≤ e := hwf (s, e) (List.mem_cons_self _ _)
    have hwf' : ∀ p ∈ rest, p.1 ≤ p.2 :=
      fun p hp => hwf p (List.mem_cons_of_mem _ hp)
    simp only [mergeRun]
    split
    · rename_i hs
      subst hs
      exact ih cs e hwf' (by omega)
    · rename_i hs
      rw [if_pos (by omega)]
      obtain ⟨z, tl, heq, hch⟩ := ih s e hwf' hse
      refine ⟨ce, (s, z) :: tl, by rw [heq], ?_⟩
      rw [List.chain'_cons]
      exact ⟨hs, heq ▸ hch⟩

/-! Claim theorems for the Slot Summarizer. -/

/-- C8 (counterexample): two overlapping (not exactly touching) intervals
on the same local date are rendered as two separate output strings:
`(0, 100)` and `(50, 150)` overlap and share local date 0, yet
`summarize_slots` emits two entries, because the merge step only
coalesces a next slot whose start equals the current end exactly. -/
theorem summarize_slots_overlap_not_merged :
    dateOf 0 0 = dateOf 0 50 ∧ (50 : Int) < 100 ∧
      mergeDay 0 (sortSlots [(0, 100), (50, 150)]) = [(0, 100), (50, 150)] ∧
      (summarize_slots 0 [(0, 100), (50, 150)] 0).length = 2 :=
  ⟨rfl, by decide, by decide, rfl⟩

/-- C8 (amended): when no merged interval is dropped by the length filter
(`min_len ≤ 0`) and the slots are well-formed (`start ≤ end`), the
summarizer never emits two entries within the same local day where one's
end exactly equals the next's start: exactly-touching runs are coalesced
into a single rendered string.  (Overlapping-but-not-touching slots may
still be emitted separately, and with a positive minimum length a dropped
short slot between two others can leave touching entries separate.) -/
theorem summarize_slots_touching_merged (off : Int) (slots : List (Int × Int))
    (min_len : Int) (hml : min_len ≤ 0) (hwf : ∀ w ∈ slots, w.1 ≤ w.2)
    (g : Int × List (Int × Int)) (hg : g ∈ groupByDay off slots) :
    summarize_slots off slots min_len =
      (groupByDay off slots).flatMap
        (fun g => (mergeDay min_len (sortSlots g.2)).map (formatSlot off)) ∧
      List.Chain' (fun a b : Int × Int => b.1 ≠ a.2)
        (mergeDay min_len (sortSlots g.2)) := by
  refine ⟨rfl, ?_⟩
  have hins : ∀ x ∈ g.2, x ∈ slots := groupByDay_mem g hg
  have hs : ∀ x ∈ sortSlots g.2, x.1 ≤ x.2 :=
    fun x hx => hwf x (hins x (mem_sortSlots.mp hx))
  cases hc : sortSlots g.2 with
  | nil => simp [mergeDay]
  | cons se tl =>
    obtain ⟨cs, ce⟩ := se
    have hce : cs ≤ ce := by
      have := hs (cs, ce) (by rw [hc]; exact List.mem_cons_self _ _)
      exact this
    have htl : ∀ p ∈ tl, p.1 ≤ p.2 :=
      fun p hp => hs p (by rw [hc]; exact List.mem_cons_of_mem _ hp)
    obtain ⟨z, tl', heq, hch⟩ := mergeRun_chain hml tl cs ce htl hce
    show List.Chain' _ (mergeRun min_len cs ce tl)
    rw [heq]
    exact hch

/-- Witness for the amended C8: two touching same-day slots merge into a
single chain block. -/
theorem summarize_slots_touching_merged_witness :
    (0 : Int) ≤ 0 ∧
      (summarize_slots 0 [(0, 10), (10, 20)] 0 =
          (groupByDay 0 [(0, 10), (10, 20)]).flatMap
            (fun g => (mergeDay 0 (sortSlots g.2)).map (formatSlot 0)) ∧
        List.Chain' (fun a b : Int × Int => b.1 ≠ a.2)
          (mergeDay 0 (sortSlots ((0 : Int), [((0 : Int), (10 : Int)),
            ((10 : Int), (20 : Int))]).2))) :=
  ⟨by decide,
    summarize_slots_touching_merged 0 [(0, 10), (10, 20)] 0 (by decide)
      (by decide) (0, [(0, 10), (10, 20)]) (by decide)⟩

/-- C9: `summarize_slots` renders exactly the merged intervals of each
day group, and every merged interval it renders has duration at least
`min_len`; no output string corresponds to a shorter interval. -/
theorem summarize_slots_min_length (off : Int) (slots : List (Int × Int))
    (min_len : Int) (g : Int × List (Int × Int))
    (hg : g ∈ groupByDay off slots) :
    summarize_slots off slots min_len =
      (groupByDay off slots).flatMap
        (fun g => (mergeDay min_len (sortSlots g.2)).map (formatSlot off)) ∧
      ∀ x ∈ mergeDay min_len (sortSlots g.2), min_len ≤ x.2 - x.1 :=
  ⟨rfl, mergeDay_minLen (sortSlots g.2)⟩

/-- Witness for C9: a 60-minute slot survives a 30-minute minimum. -/
theorem summarize_slots_min_length_witness :
    ((0 : Int), [((0 : Int), (3600 : Int))]) ∈ groupByDay 0 [(0, 3600)] ∧
      (summarize_slots 0 [(0, 3600)] 1800 =
          (groupByDay 0 [(0, 3600)]).flatMap
            (fun g => (mergeDay 1800 (sortSlots g.2)).map (formatSlot 0)) ∧
        ∀ x ∈ mergeDay 1800 (sortSlots ((0 : Int),
            [((0 : Int), (3600 : Int))]).2), 1800 ≤ x.2 - x.1) :=
  ⟨by decide,
    summarize_slots_min_length 0 [(0, 3600)] 1800 (0, [(0, 3600)]) (by decide)⟩

end FreeBusy

